import Mathlib

set_option maxHeartbeats 1000000

/-
Shallow embedding of the AnyToAny bot from src/demo_bots/any_to_any/bot.py.

Amounts are rationals (the source manipulates exchange decimal amounts).
The deposit ledger (the python dict `self.deposits`) is an association
list from deposit identifier to record; python dict semantics (update in
place keeps the position, a new key is appended at the end) are mirrored
by `ledgerSet`.  External collaborators (exchange wallets, order engine,
quotation endpoint, balances) are passed in as explicit environment
values, so each operation is a pure function of the ledger and its
environment.  Notifications are collected in a list of structured
messages mirroring the f-strings of the source.
-/

namespace AnyToAny

/-- Trade side, mirroring trading_bots.contrib.clients.Side as used by the bot. -/
inductive Side
  | buy
  | sell
  deriving DecidableEq

/-- The amounts sub-dict of a deposit record (bot.py lines 92-94). -/
structure Amounts where
  original_amount : ℚ
  converted_amount : ℚ
  converted_value : ℚ
  deriving DecidableEq

/-- One deposit record of the ledger (bot.py lines 90-97). -/
structure DepositRecord where
  state : String
  amounts : Amounts
  orders : List Nat
  pending_withdrawal : Bool
  deriving DecidableEq

/-- The deposit ledger: python dict from deposit id to record, in insertion order. -/
abbrev Ledger := List (String × DepositRecord)

/-- Lookup of a key in the ledger (python `idx in deposits.keys()` / `deposits[idx]`). -/
def ledgerFind : Ledger → String → Option DepositRecord
  | [], _ => none
  | (k, r) :: rest, k' => if k = k' then some r else ledgerFind rest k'

/-- Assignment `deposits[idx] = ...`: replaces the first entry with the key,
appends at the end when the key is new (python dict semantics). -/
def ledgerSet : Ledger → String → DepositRecord → Ledger
  | [], k, r => [(k, r)]
  | (k', r') :: rest, k, r =>
      if k' = k then (k, r) :: rest else (k', r') :: ledgerSet rest k r

/-- One deposit as reported by the exchange wallet (bot.py lines 78-99):
identifier (already stringified as in `str(deposit.id)`), reported state,
amount and currency, creation timestamp, receiving address. -/
structure Deposit where
  id : String
  state : String
  amount : ℚ
  currency : String
  created_at : Nat
  address : String
  deriving DecidableEq

/-- Structured notification messages; each constructor mirrors one f-string
handed to self.notify in bot.py (lines 88, 98-99, 120, 136). -/
inductive Msg
  | depositStateChanged (id state : String)
  | newDeposit (id currency : String) (amount : ℚ) (state : String)
  | announceOrder (side : Side) (amount : ℚ) (base : String)
  | convertSuccess (value : ℚ) (currency : String)
  deriving DecidableEq

/-- The bot instance configuration and setup-time state used by the three
operations (bot.py lines 35-43): configured currencies, address filter,
withdrawal flag, resolved side and market base currency.  `prec` abstracts
the currency-to-decimal-precision table consulted by truncate_to. -/
structure Bot where
  from_currency : String
  from_address : String
  to_currency : String
  to_withdraw : Bool
  side : Side
  base : String
  prec : String → Nat

/-- Modelled from the spec: the helper trading_bots.utils.truncate_to (imported
by bot.py, its source is outside this repository) floors an amount to the
currency's decimal precision, never rounding up (spec section 8: 1.23456789 at
4 decimals truncates to 1.2345).  The currency argument is already resolved to
its precision by Bot.prec at every call site. -/
def truncate_to (x : ℚ) (p : Nat) : ℚ :=
  (⌊x * 10 ^ p⌋ : ℚ) / 10 ^ p

/-- The fresh record built for a first-seen deposit (bot.py lines 90-97). -/
def newRecord (d : Deposit) (to_withdraw : Bool) : DepositRecord :=
  { state := d.state
    amounts := { original_amount := d.amount, converted_amount := 0, converted_value := 0 }
    orders := []
    pending_withdrawal := to_withdraw }

/-- Body of the per-deposit loop of update_deposits (bot.py lines 83-99). -/
def updateDepositsStep (to_withdraw : Bool) (L : Ledger) (d : Deposit) :
    Ledger × List Msg :=
  match ledgerFind L d.id with
  | some r =>
      if d.state ≠ r.state then
        (ledgerSet L d.id { r with state := d.state },
         [Msg.depositStateChanged d.id d.state])
      else (L, [])
  | none =>
      (ledgerSet L d.id (newRecord d to_withdraw),
       [Msg.newDeposit d.id d.currency d.amount d.state])

/-- The for-loop of update_deposits over the filtered deposit feed. -/
def updFold (to_withdraw : Bool) : Ledger → List Deposit → Ledger × List Msg
  | L, [] => (L, [])
  | L, d :: ds =>
      let s := updateDepositsStep to_withdraw L d
      let t := updFold to_withdraw s.1 ds
      (t.1, s.2 ++ t.2)

/-- Deposit feed filtering (bot.py lines 79-81): by address unless the
configured address is the wildcard sentinel, then by creation time at or
after start_date. -/
def filterDeposits (b : Bot) (start_date : Nat) (ds : List Deposit) : List Deposit :=
  let ds1 := if b.from_address ≠ "Any" then
               ds.filter (fun d => d.address = b.from_address)
             else ds
  ds1.filter (fun d => start_date ≤ d.created_at)

/-- update_deposits (bot.py lines 72-101): reconcile the filtered feed into
the ledger; returns the new ledger and the notifications emitted. -/
def update_deposits (b : Bot) (start_date : Nat) (L : Ledger) (feed : List Deposit) :
    Ledger × List Msg :=
  updFold b.to_withdraw L (filterDeposits b start_date feed)

/-- A market order as returned by order_details (bot.py lines 122-135). -/
structure MarketOrder where
  id : Nat
  state : String
  traded_amount : ℚ
  total_exchanged : ℚ
  paid_fee : ℚ
  deriving DecidableEq

/-- Result of place_market_order followed by the polling loop of bot.py
lines 119-126: either no order was returned, or the order eventually
reported by order_details once the loop exits (the loop exits only on the
traded state, which theorems record as a hypothesis on the order). -/
inductive ConvOutcome
  | noOrder
  | traded (o : MarketOrder)
  deriving DecidableEq

/-- The amount handed to place_market_order for a record with remaining
amount `remaining` (bot.py lines 113-117): on the buy side the remaining
quote amount is first translated to a base order size by the quotation
endpoint, then the result is truncated to the base currency's precision. -/
def placedAmount (b : Bot) (quot : ℚ → ℚ) (remaining : ℚ) : ℚ :=
  truncate_to (if b.side = Side.buy then quot remaining else remaining) (b.prec b.base)

/-- Body of the per-record loop of process_conversions (bot.py lines
107-141).  `quot` is the quotation endpoint for this record, `place` the
order placement and polling outcome for a given placed amount. -/
def convertRecord (b : Bot) (quot : ℚ → ℚ) (place : ℚ → ConvOutcome)
    (r : DepositRecord) : DepositRecord × List Msg :=
  let remaining0 := r.amounts.original_amount - r.amounts.converted_amount
  if r.state = "confirmed" ∧ 0 < remaining0 then
    let remaining := placedAmount b quot remaining0
    match place remaining with
    | ConvOutcome.noOrder =>
        ({ r with amounts :=
            { original_amount := r.amounts.original_amount
              converted_amount := r.amounts.converted_amount
              converted_value := r.amounts.converted_value } },
         [Msg.announceOrder b.side remaining b.base])
    | ConvOutcome.traded o =>
        let converted_amount := r.amounts.converted_amount +
          (if b.side = Side.buy ∧ o.state = "traded" then o.total_exchanged
           else o.traded_amount)
        let cv1 := r.amounts.converted_value +
          (if b.side = Side.buy ∧ o.state = "traded" then o.traded_amount
           else o.total_exchanged)
        let converted_value := cv1 - o.paid_fee
        ({ r with
            amounts :=
              { original_amount := r.amounts.original_amount
                converted_amount := converted_amount
                converted_value := converted_value }
            orders := r.orders ++ [o.id] },
         [Msg.announceOrder b.side remaining b.base,
          Msg.convertSuccess converted_value b.to_currency])
  else (r, [])

/-- The conversion environment: quotation endpoint and order placement
outcome per deposit identifier. -/
structure ConvEnv where
  quot : String → ℚ → ℚ
  place : String → ℚ → ConvOutcome

/-- process_conversions (bot.py lines 103-141): convert every eligible
record; returns the new ledger and the notifications emitted. -/
def process_conversions (b : Bot) (env : ConvEnv) : Ledger → Ledger × List Msg
  | [] => ([], [])
  | (k, r) :: rest =>
      let s := convertRecord b (env.quot k) (env.place k) r
      let t := process_conversions b env rest
      ((k, s.1) :: t.1, s.2 ++ t.2)

/-- The withdrawal environment: the destination wallet's available balance
as observed when a given record is processed (bot.py line 155). -/
structure WdrEnv where
  available : String → ℚ

/-- process_withdrawals (bot.py lines 143-170), embedded faithfully: for an
eligible record the code computes the truncated withdrawal amount and the
available balance, and then on BOTH branches evaluates an f-string over a
name that is not defined in the function — converted_value on line 157 (it
is local to process_conversions) and amount on lines 169-170 — so either
branch raises NameError, aborting the whole call before any mutation;
lines 158-167 (request_withdrawal, pending_withdrawal := False, persist,
success notification) are unreachable. -/
def process_withdrawals (b : Bot) (env : WdrEnv) :
    Ledger → Except String (Ledger × List Msg)
  | [] => Except.ok ([], [])
  | (k, r) :: rest =>
      if r.state = "confirmed" ∧ r.pending_withdrawal = true ∧
          r.amounts.original_amount = r.amounts.converted_amount then
        let withdrawal_amount := truncate_to r.amounts.converted_value (b.prec b.to_currency)
        if withdrawal_amount ≤ env.available k then
          Except.error "NameError: converted_value is not defined"
        else
          Except.error "NameError: amount is not defined"
      else
        match process_withdrawals b env rest with
        | Except.ok p => Except.ok ((k, r) :: p.1, p.2)
        | Except.error e => Except.error e

/-- Result of the ledger- and start-date-related part of _setup (bot.py
lines 49-52). -/
structure SetupResult where
  deposits : Ledger
  start_date : Nat

/-- Lookup in the persistent store, modelled as an association list from
storage key to stored ledger snapshot. -/
def storeFind : List (String × Ledger) → String → Option Ledger
  | [], _ => none
  | (k, v) :: rest, k' => if k = k' then some v else storeFind rest k'

/-- The ledger/start-date part of _setup (bot.py lines 49-52): reads the
ledger snapshot for the source currency (`or {}` for a missing or empty
value), sets start_date to the current UTC time of this execution, and
performs no store write (the returned store is the input store). -/
def setup (from_currency : String) (store : List (String × Ledger)) (now : Nat) :
    SetupResult × List (String × Ledger) :=
  ({ deposits := (storeFind store (from_currency ++ "_deposits")).getD []
     start_date := now },
   store)

/-- One market as listed by the public markets endpoint (bot.py lines 174-176). -/
structure MarketInfo where
  base_currency : String
  quote_currency : String
  deriving DecidableEq

/-- The market value constructed by _get_market (bot.py lines 179-181). -/
structure Market where
  base : String
  quote : String
  deriving DecidableEq

/-- _get_market (bot.py lines 172-184): membership of the two configured
currencies is tested against the bases and quotes collected across ALL
markets (not against single markets), and the error is raised only when
neither combination holds. -/
def get_market (markets : List MarketInfo) (from_currency to_currency : String) :
    Except String Market :=
  let bases := markets.map MarketInfo.base_currency
  let quotes := markets.map MarketInfo.quote_currency
  if from_currency ∈ bases ∧ to_currency ∈ quotes then
    Except.ok { base := from_currency, quote := to_currency }
  else if from_currency ∈ quotes ∧ to_currency ∈ bases then
    Except.ok { base := to_currency, quote := from_currency }
  else
    Except.error "No compatible market found!"

/-- Side selection of _setup (bot.py line 43): sell when the resolved
market's base is the source currency, buy otherwise. -/
def sideFor (m : Market) (from_currency : String) : Side :=
  if m.base = from_currency then Side.sell else Side.buy

/-- One operation of a tick, with the external inputs it consumes; ticks
run deposits, conversions, withdrawals in order, but the invariants below
hold for arbitrary interleavings. -/
inductive Op
  | deposits (start_date : Nat) (feed : List Deposit)
  | conversions (env : ConvEnv)
  | withdrawals (env : WdrEnv)

/-- The ledger after one operation.  A raised exception (withdrawals)
aborts the call before any mutation, leaving the ledger as it was. -/
def runOp (b : Bot) (L : Ledger) : Op → Ledger
  | Op.deposits sd feed => (update_deposits b sd L feed).1
  | Op.conversions env => (process_conversions b env L).1
  | Op.withdrawals env =>
      match process_withdrawals b env L with
      | Except.ok p => p.1
      | Except.error _ => L

/-- The ledger after a sequence of operations. -/
def runOps (b : Bot) : Ledger → List Op → Ledger
  | L, [] => L
  | L, op :: ops => runOps b (runOp b L op) ops

/-- The per-record amount invariant of the spec (section 3 and section 8). -/
abbrev RecInv (r : DepositRecord) : Prop :=
  0 ≤ r.amounts.converted_amount ∧
    r.amounts.converted_amount ≤ r.amounts.original_amount

/-- The ledger-wide amount invariant. -/
abbrev LedgerInv (L : Ledger) : Prop := ∀ kr ∈ L, RecInv kr.2

/-- The source-currency quantity a traded order consumes, as accounted by
bot.py lines 128-130: total_exchanged on the buy side, traded_amount on
the sell side. -/
def convInc (s : Side) (o : MarketOrder) : ℚ :=
  if s = Side.buy then o.total_exchanged else o.traded_amount

/-- Well-behaved exchange responses for a conversion environment: an order
that came back traded for the amount placed for a record with positive
remaining amount reports the traded final state and consumes a nonnegative
source-currency quantity of at most the remaining amount. -/
def GoodConvEnv (b : Bot) (env : ConvEnv) : Prop :=
  ∀ k (remaining : ℚ), 0 < remaining →
    ∀ o, env.place k (placedAmount b (env.quot k) remaining) = ConvOutcome.traded o →
      o.state = "traded" ∧ 0 ≤ convInc b.side o ∧ convInc b.side o ≤ remaining

/-- Well-behaved external inputs of one operation: deposited amounts are
nonnegative, conversion environments are well behaved. -/
def GoodOp (b : Bot) : Op → Prop
  | Op.deposits _ feed => ∀ d ∈ feed, 0 ≤ d.amount
  | Op.conversions env => GoodConvEnv b env
  | Op.withdrawals _ => True

/-- A concrete sell-side bot instance used by witnesses. -/
def botW : Bot := ⟨"BTC", "Any", "USD", true, Side.sell, "BTC", fun _ => 8⟩

/-- A concrete incoming deposit used by witnesses. -/
def depW : Deposit := ⟨"D1", "confirmed", 5, "BTC", 10, "ad1"⟩

/-- A conversion environment whose order placement always returns no order. -/
def envNoOrder : ConvEnv := ⟨fun _ q => q, fun _ _ => ConvOutcome.noOrder⟩

/-- A one-operation sequence: track one deposit. -/
def opsW1 : List Op := [Op.deposits 0 [depW]]

/-- A one-operation sequence: run conversions with the no-order environment. -/
def opsW2 : List Op := [Op.conversions envNoOrder]

/-- An unconverted, unconfirmed record used by witnesses. -/
def recPW : DepositRecord := ⟨"unconfirmed", ⟨5, 0, 0⟩, [], true⟩

/-- A one-record ledger used by witnesses. -/
def ledgerW : Ledger := [("D1", recPW)]

/-- A withdrawal environment with zero available balance. -/
def wdrEnvW : WdrEnv := ⟨fun _ => 0⟩

/-- A one-operation sequence: run withdrawals. -/
def opsW3 : List Op := [Op.withdrawals wdrEnvW]

/-- A confirmed, unconverted record of 1/2 BTC used by witnesses. -/
def recCW : DepositRecord := ⟨"confirmed", ⟨1/2, 0, 0⟩, [], true⟩

/-- A traded market order: 1/2 base traded for 2000 quote, 2 fee (spec scenario C). -/
def ordCW : MarketOrder := ⟨7, "traded", 1/2, 2000, 2⟩

/-- A fully converted record awaiting withdrawal: converted_value 1998
(spec scenarios E and F). -/
def recE : DepositRecord := ⟨"confirmed", ⟨1/2, 1/2, 1998⟩, [7], true⟩

/-- The one-record ledger of spec scenarios E and F. -/
def ledgerE : Ledger := [("D1", recE)]

/-- Withdrawal environment with available balance 1997 (less than 1998). -/
def wdrEnvLow : WdrEnv := ⟨fun _ => 1997⟩

/-- Withdrawal environment with available balance 3000 (more than 1998). -/
def wdrEnvHigh : WdrEnv := ⟨fun _ => 3000⟩

/-- A deposit created at time 6, between a first activation at time 5 and a
later re-execution at time 9. -/
def depEarly : Deposit := ⟨"D7", "confirmed", 1, "BTC", 6, "ad1"⟩

/-- A markets list in which no single market pairs BTC with USD, although BTC
is a base (of BTC-CLP) and USD is a quote (of ETH-USD). -/
def mktsCE : List MarketInfo := [⟨"BTC", "CLP"⟩, ⟨"ETH", "USD"⟩]

theorem ledgerFind_set_self (L : Ledger) (k : String) (r : DepositRecord) :
    ledgerFind (ledgerSet L k r) k = some r := by
  induction L with
  | nil => simp [ledgerSet, ledgerFind]
  | cons hd tl ih =>
      obtain ⟨a, b⟩ := hd
      by_cases h : a = k
      · simp [ledgerSet, h, ledgerFind]
      · simp [ledgerSet, h, ledgerFind, ih]

theorem ledgerFind_set_ne (L : Ledger) (k k' : String) (r : DepositRecord)
    (h : k' ≠ k) : ledgerFind (ledgerSet L k r) k' = ledgerFind L k' := by
  induction L with
  | nil => simp [ledgerSet, ledgerFind, Ne.symm h]
  | cons hd tl ih =>
      obtain ⟨a, b⟩ := hd
      by_cases ha : a = k
      · subst ha
        simp [ledgerSet, ledgerFind, Ne.symm h]
      · simp [ledgerSet, ha, ledgerFind, ih]

theorem mem_ledgerSet (L : Ledger) (k : String) (r : DepositRecord)
    (x : String × DepositRecord) (hx : x ∈ ledgerSet L k r) :
    x = (k, r) ∨ x ∈ L := by
  induction L with
  | nil => simpa [ledgerSet] using hx
  | cons hd tl ih =>
      obtain ⟨a, b⟩ := hd
      by_cases ha : a = k
      · simp only [ledgerSet, if_pos ha, List.mem_cons] at hx
        rcases hx with hx | hx
        · exact Or.inl hx
        · exact Or.inr (List.mem_cons_of_mem _ hx)
      · simp only [ledgerSet, if_neg ha, List.mem_cons] at hx
        rcases hx with hx | hx
        · exact Or.inr (by simp [hx])
        · rcases ih hx with hx' | hx'
          · exact Or.inl hx'
          · exact Or.inr (List.mem_cons_of_mem _ hx')

theorem ledgerFind_some_mem (L : Ledger) (k : String) (r : DepositRecord)
    (h : ledgerFind L k = some r) : (k, r) ∈ L := by
  induction L with
  | nil => simp [ledgerFind] at h
  | cons hd tl ih =>
      obtain ⟨a, b⟩ := hd
      by_cases ha : a = k
      · subst ha
        rw [ledgerFind, if_pos rfl] at h
        injection h with h
        simp [h]
      · simp only [ledgerFind, if_neg ha] at h
        exact List.mem_cons_of_mem _ (ih h)

theorem process_withdrawals_ok (b : Bot) (env : WdrEnv) :
    ∀ (L : Ledger) (p : Ledger × List Msg),
      process_withdrawals b env L = Except.ok p → p = (L, []) := by
  intro L
  induction L with
  | nil =>
      intro p hp
      simp only [process_withdrawals, Except.ok.injEq] at hp
      exact hp.symm
  | cons hd tl ih =>
      obtain ⟨k, r⟩ := hd
      intro p hp
      by_cases hel : r.state = "confirmed" ∧ r.pending_withdrawal = true ∧
          r.amounts.original_amount = r.amounts.converted_amount
      · rw [process_withdrawals, if_pos hel] at hp
        dsimp only at hp
        split at hp <;> exact Except.noConfusion hp
      · rw [process_withdrawals, if_neg hel] at hp
        cases htl : process_withdrawals b env tl with
        | error e => rw [htl] at hp; exact Except.noConfusion hp
        | ok q =>
            rw [htl] at hp
            have hq := ih q htl
            simp only [Except.ok.injEq] at hp
            subst hp
            simp [hq]

theorem runOp_withdrawals_eq (b : Bot) (env : WdrEnv) (L : Ledger) :
    runOp b L (Op.withdrawals env) = L := by
  rw [runOp]
  cases hw : process_withdrawals b env L with
  | error e => rfl
  | ok p => exact congrArg Prod.fst (process_withdrawals_ok b env L p hw)

theorem updateDepositsStep_find_pres (w : Bool) (L : Ledger) (d : Deposit)
    (k : String) (r : DepositRecord) (h : ledgerFind L k = some r) :
    ∃ r', ledgerFind (updateDepositsStep w L d).1 k = some r' ∧
      r'.amounts = r.amounts ∧ r'.pending_withdrawal = r.pending_withdrawal ∧
      r'.orders = r.orders := by
  by_cases hk : d.id = k
  · subst hk
    simp only [updateDepositsStep, h]
    by_cases hs : d.state = r.state
    · rw [if_neg (not_not_intro hs)]
      exact ⟨r, h, rfl, rfl, rfl⟩
    · rw [if_pos hs]
      exact ⟨{ r with state := d.state }, ledgerFind_set_self L d.id _, rfl, rfl, rfl⟩
  · cases hfd : ledgerFind L d.id with
    | none =>
        simp only [updateDepositsStep, hfd]
        exact ⟨r, by rw [ledgerFind_set_ne L d.id k _ (Ne.symm hk)]; exact h, rfl, rfl, rfl⟩
    | some r0 =>
        simp only [updateDepositsStep, hfd]
        by_cases hs : d.state = r0.state
        · rw [if_neg (not_not_intro hs)]
          exact ⟨r, h, rfl, rfl, rfl⟩
        · rw [if_pos hs]
          exact ⟨r, by rw [ledgerFind_set_ne L d.id k _ (Ne.symm hk)]; exact h, rfl, rfl, rfl⟩

theorem updFold_find_pres (w : Bool) :
    ∀ (ds : List Deposit) (L : Ledger) (k : String) (r : DepositRecord),
      ledgerFind L k = some r →
      ∃ r', ledgerFind (updFold w L ds).1 k = some r' ∧
        r'.amounts = r.amounts ∧ r'.pending_withdrawal = r.pending_withdrawal ∧
        r'.orders = r.orders := by
  intro ds
  induction ds with
  | nil => intro L k r h; exact ⟨r, h, rfl, rfl, rfl⟩
  | cons d ds ih =>
      intro L k r h
      obtain ⟨r1, h1, ha1, hp1, ho1⟩ := updateDepositsStep_find_pres w L d k r h
      obtain ⟨r2, h2, ha2, hp2, ho2⟩ := ih (updateDepositsStep w L d).1 k r1 h1
      exact ⟨r2, h2, by rw [ha2, ha1], by rw [hp2, hp1], by rw [ho2, ho1]⟩

theorem updateDepositsStep_inv (w : Bool) (L : Ledger) (d : Deposit)
    (hL : LedgerInv L) (hd : 0 ≤ d.amount) :
    LedgerInv (updateDepositsStep w L d).1 := by
  cases hfd : ledgerFind L d.id with
  | some r0 =>
      have hr0 : RecInv r0 := hL _ (ledgerFind_some_mem L d.id r0 hfd)
      by_cases hs : d.state = r0.state
      · simpa only [updateDepositsStep, hfd, if_neg (not_not_intro hs)] using hL
      · simp only [updateDepositsStep, hfd, if_pos hs]
        intro kr hkr
        rcases mem_ledgerSet _ _ _ _ hkr with hx | hx
        · subst hx; exact hr0
        · exact hL _ hx
  | none =>
      simp only [updateDepositsStep, hfd]
      intro kr hkr
      rcases mem_ledgerSet _ _ _ _ hkr with hx | hx
      · subst hx; exact ⟨le_refl 0, hd⟩
      · exact hL _ hx

theorem updFold_inv (w : Bool) :
    ∀ (ds : List Deposit) (L : Ledger), LedgerInv L → (∀ d ∈ ds, 0 ≤ d.amount) →
      LedgerInv (updFold w L ds).1 := by
  intro ds
  induction ds with
  | nil => intro L hL _; exact hL
  | cons d ds ih =>
      intro L hL hds
      have h1 := updateDepositsStep_inv w L d hL (hds d (by simp))
      exact ih (updateDepositsStep w L d).1 h1 (fun d' hd' => hds d' (List.mem_cons_of_mem _ hd'))

theorem updateDepositsStep_find_other (w : Bool) (L : Ledger) (d : Deposit)
    (k : String) (hk : d.id ≠ k) :
    ledgerFind (updateDepositsStep w L d).1 k = ledgerFind L k := by
  cases hfd : ledgerFind L d.id with
  | some r0 =>
      by_cases hs : d.state = r0.state
      · simp only [updateDepositsStep, hfd, if_neg (not_not_intro hs)]
      · simp only [updateDepositsStep, hfd, if_pos hs]
        exact ledgerFind_set_ne L d.id k _ (Ne.symm hk)
  | none =>
      simp only [updateDepositsStep, hfd]
      exact ledgerFind_set_ne L d.id k _ (Ne.symm hk)

theorem updFold_find_other (w : Bool) :
    ∀ (ds : List Deposit) (L : Ledger) (k : String), (∀ d ∈ ds, d.id ≠ k) →
      ledgerFind (updFold w L ds).1 k = ledgerFind L k := by
  intro ds
  induction ds with
  | nil => intro L k _; rfl
  | cons d ds ih =>
      intro L k h
      have h1 := updateDepositsStep_find_other w L d k (h d (by simp))
      have h2 := ih (updateDepositsStep w L d).1 k
        (fun d' hd' => h d' (List.mem_cons_of_mem _ hd'))
      calc ledgerFind (updFold w L (d :: ds)).1 k
          = ledgerFind (updFold w (updateDepositsStep w L d).1 ds).1 k := rfl
        _ = ledgerFind (updateDepositsStep w L d).1 k := h2
        _ = ledgerFind L k := h1

theorem updateDepositsStep_find_self (w : Bool) (L : Ledger) (d : Deposit) :
    ∃ r, ledgerFind (updateDepositsStep w L d).1 d.id = some r ∧ r.state = d.state := by
  cases hfd : ledgerFind L d.id with
  | some r0 =>
      by_cases hs : d.state = r0.state
      · refine ⟨r0, ?_, hs.symm⟩
        simp only [updateDepositsStep, hfd, if_neg (not_not_intro hs)]
      · refine ⟨{ r0 with state := d.state }, ?_, rfl⟩
        simp only [updateDepositsStep, hfd, if_pos hs]
        exact ledgerFind_set_self L d.id _
  | none =>
      refine ⟨newRecord d w, ?_, rfl⟩
      simp only [updateDepositsStep, hfd]
      exact ledgerFind_set_self L d.id _

theorem updFold_post (w : Bool) :
    ∀ (ds : List Deposit) (L : Ledger), (ds.map Deposit.id).Nodup →
      ∀ d ∈ ds, ∃ r, ledgerFind (updFold w L ds).1 d.id = some r ∧ r.state = d.state := by
  intro ds
  induction ds with
  | nil => intro L _ d hd; exact absurd hd (List.not_mem_nil d)
  | cons d0 ds ih =>
      intro L hnd d hd
      have hnd' : (ds.map Deposit.id).Nodup := (List.nodup_cons.mp hnd).2
      have hd0 : d0.id ∉ ds.map Deposit.id := (List.nodup_cons.mp hnd).1
      rcases List.mem_cons.mp hd with rfl | hmem
      · obtain ⟨r, hr, hs⟩ := updateDepositsStep_find_self w L d
        refine ⟨r, ?_, hs⟩
        have hother : ∀ d' ∈ ds, d'.id ≠ d.id := by
          intro d' hd' he
          exact hd0 (he ▸ List.mem_map_of_mem Deposit.id hd')
        calc ledgerFind (updFold w L (d :: ds)).1 d.id
            = ledgerFind (updFold w (updateDepositsStep w L d).1 ds).1 d.id := rfl
          _ = ledgerFind (updateDepositsStep w L d).1 d.id :=
              updFold_find_other w ds _ d.id hother
          _ = some r := hr
      · exact ih (updateDepositsStep w L d0).1 hnd' d hmem

theorem updFold_noop (w : Bool) :
    ∀ (ds : List Deposit) (L : Ledger),
      (∀ d ∈ ds, ∃ r, ledgerFind L d.id = some r ∧ r.state = d.state) →
      updFold w L ds = (L, []) := by
  intro ds
  induction ds with
  | nil => intro L _; rfl
  | cons d ds ih =>
      intro L h
      obtain ⟨r, hr, hs⟩ := h d (by simp)
      have hstep : updateDepositsStep w L d = (L, []) := by
        simp only [updateDepositsStep, hr]
        rw [if_neg (not_not_intro hs.symm)]
      have hrest := ih L (fun d' hd' => h d' (List.mem_cons_of_mem _ hd'))
      calc updFold w L (d :: ds)
          = ((updFold w (updateDepositsStep w L d).1 ds).1,
             (updateDepositsStep w L d).2 ++ (updFold w (updateDepositsStep w L d).1 ds).2) := rfl
        _ = (L, []) := by rw [hstep]; simp [hrest]

theorem convertRecord_pres (b : Bot) (quot : ℚ → ℚ) (place : ℚ → ConvOutcome)
    (r : DepositRecord) :
    (convertRecord b quot place r).1.state = r.state ∧
    (convertRecord b quot place r).1.pending_withdrawal = r.pending_withdrawal ∧
    (convertRecord b quot place r).1.amounts.original_amount = r.amounts.original_amount := by
  rw [convertRecord]
  by_cases hc : r.state = "confirmed" ∧
      0 < r.amounts.original_amount - r.amounts.converted_amount
  · rw [if_pos hc]
    cases hpl : place (placedAmount b quot
        (r.amounts.original_amount - r.amounts.converted_amount)) with
    | noOrder => simp [hpl]
    | traded o => simp [hpl]
  · rw [if_neg hc]
    exact ⟨rfl, rfl, rfl⟩

theorem convertRecord_conv (b : Bot) (quot : ℚ → ℚ) (place : ℚ → ConvOutcome)
    (r : DepositRecord)
    (hg : 0 < r.amounts.original_amount - r.amounts.converted_amount →
      ∀ o, place (placedAmount b quot
            (r.amounts.original_amount - r.amounts.converted_amount)) =
          ConvOutcome.traded o →
        o.state = "traded" ∧ 0 ≤ convInc b.side o ∧
          convInc b.side o ≤ r.amounts.original_amount - r.amounts.converted_amount) :
    r.amounts.converted_amount ≤ (convertRecord b quot place r).1.amounts.converted_amount ∧
    (RecInv r → RecInv (convertRecord b quot place r).1) := by
  rw [convertRecord]
  by_cases hc : r.state = "confirmed" ∧
      0 < r.amounts.original_amount - r.amounts.converted_amount
  · rw [if_pos hc]
    cases hpl : place (placedAmount b quot
        (r.amounts.original_amount - r.amounts.converted_amount)) with
    | noOrder =>
        simp only [hpl]
        exact ⟨le_refl _, fun h => h⟩
    | traded o =>
        obtain ⟨hst, h0, h1⟩ := hg hc.2 o hpl
        simp only [hpl, hst, and_true]
        rw [convInc] at h0 h1
        refine ⟨le_add_of_nonneg_right h0, fun hr => ⟨add_nonneg hr.1 h0, ?_⟩⟩
        have h2 : r.amounts.converted_amount +
            (if b.side = Side.buy then o.total_exchanged else o.traded_amount) ≤
            r.amounts.original_amount := by
          have := hr.2
          linarith
        exact h2
  · rw [if_neg hc]
    exact ⟨le_refl _, fun h => h⟩

theorem process_conversions_find (b : Bot) (env : ConvEnv) :
    ∀ (L : Ledger) (k : String) (r : DepositRecord), ledgerFind L k = some r →
      ledgerFind (process_conversions b env L).1 k =
        some (convertRecord b (env.quot k) (env.place k) r).1 := by
  intro L
  induction L with
  | nil => intro k r h; simp [ledgerFind] at h
  | cons hd tl ih =>
      obtain ⟨a, s⟩ := hd
      intro k r h
      rw [process_conversions]
      dsimp only
      by_cases ha : a = k
      · subst ha
        rw [ledgerFind, if_pos rfl] at h
        injection h with h
        subst h
        rw [ledgerFind, if_pos rfl]
      · rw [ledgerFind, if_neg ha] at h
        rw [ledgerFind, if_neg ha]
        exact ih k r h

theorem process_conversions_mem (b : Bot) (env : ConvEnv) :
    ∀ (L : Ledger) (x : String × DepositRecord), x ∈ (process_conversions b env L).1 →
      ∃ p ∈ L, x = (p.1, (convertRecord b (env.quot p.1) (env.place p.1) p.2).1) := by
  intro L
  induction L with
  | nil => intro x hx; simp [process_conversions] at hx
  | cons hd tl ih =>
      obtain ⟨a, s⟩ := hd
      intro x hx
      rw [process_conversions] at hx
      dsimp only at hx
      rcases List.mem_cons.mp hx with hx | hx
      · exact ⟨(a, s), by simp, hx⟩
      · obtain ⟨p, hp, he⟩ := ih x hx
        exact ⟨p, List.mem_cons_of_mem _ hp, he⟩

theorem mem_filterDeposits (b : Bot) (sd : Nat) (feed : List Deposit) (d : Deposit)
    (h : d ∈ filterDeposits b sd feed) : d ∈ feed ∧ sd ≤ d.created_at := by
  simp only [filterDeposits] at h
  obtain ⟨h1, h2⟩ := List.mem_filter.mp h
  refine ⟨?_, of_decide_eq_true h2⟩
  split at h1
  · exact (List.mem_filter.mp h1).1
  · exact h1

theorem runOp_pending (b : Bot) (op : Op) (L : Ledger) (k : String) (r : DepositRecord)
    (h : ledgerFind L k = some r) :
    ∃ r', ledgerFind (runOp b L op) k = some r' ∧
      r'.pending_withdrawal = r.pending_withdrawal := by
  cases op with
  | deposits sd feed =>
      obtain ⟨r', h', _, hp, _⟩ :=
        updFold_find_pres b.to_withdraw (filterDeposits b sd feed) L k r h
      exact ⟨r', h', hp⟩
  | conversions env =>
      exact ⟨(convertRecord b (env.quot k) (env.place k) r).1,
        process_conversions_find b env L k r h,
        (convertRecord_pres b (env.quot k) (env.place k) r).2.1⟩
  | withdrawals env =>
      rw [runOp_withdrawals_eq]
      exact ⟨r, h, rfl⟩

theorem runOp_conv_mono (b : Bot) (op : Op) (L : Ledger) (k : String) (r : DepositRecord)
    (hg : GoodOp b op) (h : ledgerFind L k = some r) :
    ∃ r', ledgerFind (runOp b L op) k = some r' ∧
      r.amounts.converted_amount ≤ r'.amounts.converted_amount := by
  cases op with
  | deposits sd feed =>
      obtain ⟨r', h', ha, _, _⟩ :=
        updFold_find_pres b.to_withdraw (filterDeposits b sd feed) L k r h
      exact ⟨r', h', by rw [ha]⟩
  | conversions env =>
      refine ⟨(convertRecord b (env.quot k) (env.place k) r).1,
        process_conversions_find b env L k r h, ?_⟩
      exact (convertRecord_conv b (env.quot k) (env.place k) r
        (fun hrem o ho => hg k _ hrem o ho)).1
  | withdrawals env =>
      rw [runOp_withdrawals_eq]
      exact ⟨r, h, le_refl _⟩

theorem runOp_inv (b : Bot) (op : Op) (L : Ledger) (hg : GoodOp b op)
    (hL : LedgerInv L) : LedgerInv (runOp b L op) := by
  cases op with
  | deposits sd feed =>
      exact updFold_inv b.to_withdraw (filterDeposits b sd feed) L hL
        (fun d hd => hg d (mem_filterDeposits b sd feed d hd).1)
  | conversions env =>
      intro kr hkr
      obtain ⟨p, hp, he⟩ := process_conversions_mem b env L kr hkr
      subst he
      exact (convertRecord_conv b (env.quot p.1) (env.place p.1) p.2
        (fun hrem o ho => hg p.1 _ hrem o ho)).2 (hL p hp)
  | withdrawals env =>
      rw [runOp_withdrawals_eq]
      exact hL

theorem runOps_pending (b : Bot) :
    ∀ (ops : List Op) (L : Ledger) (k : String) (r : DepositRecord),
      ledgerFind L k = some r →
      ∃ r', ledgerFind (runOps b L ops) k = some r' ∧
        r'.pending_withdrawal = r.pending_withdrawal := by
  intro ops
  induction ops with
  | nil => intro L k r h; exact ⟨r, h, rfl⟩
  | cons op ops ih =>
      intro L k r h
      obtain ⟨r1, h1, hp1⟩ := runOp_pending b op L k r h
      obtain ⟨r2, h2, hp2⟩ := ih (runOp b L op) k r1 h1
      exact ⟨r2, h2, by rw [hp2, hp1]⟩

theorem runOps_conv_mono (b : Bot) :
    ∀ (ops : List Op) (L : Ledger) (k : String) (r : DepositRecord),
      (∀ op ∈ ops, GoodOp b op) → ledgerFind L k = some r →
      ∃ r', ledgerFind (runOps b L ops) k = some r' ∧
        r.amounts.converted_amount ≤ r'.amounts.converted_amount := by
  intro ops
  induction ops with
  | nil => intro L k r _ h; exact ⟨r, h, le_refl _⟩
  | cons op ops ih =>
      intro L k r hg h
      obtain ⟨r1, h1, hm1⟩ := runOp_conv_mono b op L k r (hg op (by simp)) h
      obtain ⟨r2, h2, hm2⟩ :=
        ih (runOp b L op) k r1 (fun op' hop' => hg op' (List.mem_cons_of_mem _ hop')) h1
      exact ⟨r2, h2, le_trans hm1 hm2⟩

theorem runOps_inv (b : Bot) :
    ∀ (ops : List Op) (L : Ledger), (∀ op ∈ ops, GoodOp b op) → LedgerInv L →
      LedgerInv (runOps b L ops) := by
  intro ops
  induction ops with
  | nil => intro L _ hL; exact hL
  | cons op ops ih =>
      intro L hg hL
      exact ih (runOp b L op)
        (fun op' hop' => hg op' (List.mem_cons_of_mem _ hop'))
        (runOp_inv b op L (hg op (by simp)) hL)

theorem runOps_append (b : Bot) :
    ∀ (ops1 ops2 : List Op) (L : Ledger),
      runOps b L (ops1 ++ ops2) = runOps b (runOps b L ops1) ops2 := by
  intro ops1
  induction ops1 with
  | nil => intro ops2 L; rfl
  | cons op ops ih => intro ops2 L; exact ih ops2 (runOp b L op)

/-- C1: after every operation of DepositTracker (update_deposits),
ConversionEngine (process_conversions) and WithdrawalEngine
(process_withdrawals) — assuming well-behaved external inputs, namely
nonnegative deposited amounts and traded orders that consume a nonnegative
source-currency quantity of at most the remaining amount — every ledger record
satisfies 0 ≤ converted_amount ≤ original_amount, and converted_amount is
monotonically non-decreasing across operations. -/
theorem converted_amount_invariant (b : Bot) (L : Ledger) (ops1 ops2 : List Op)
    (hL : LedgerInv L) (hg : ∀ op ∈ ops1 ++ ops2, GoodOp b op) :
    LedgerInv (runOps b L ops1) ∧ LedgerInv (runOps b L (ops1 ++ ops2)) ∧
    ∀ (k : String) (r1 r2 : DepositRecord),
      ledgerFind (runOps b L ops1) k = some r1 →
      ledgerFind (runOps b L (ops1 ++ ops2)) k = some r2 →
      r1.amounts.converted_amount ≤ r2.amounts.converted_amount := by
  have hg1 : ∀ op ∈ ops1, GoodOp b op :=
    fun op hop => hg op (List.mem_append_left _ hop)
  have hg2 : ∀ op ∈ ops2, GoodOp b op :=
    fun op hop => hg op (List.mem_append_right _ hop)
  refine ⟨runOps_inv b ops1 L hg1 hL, ?_, ?_⟩
  · rw [runOps_append]
    exact runOps_inv b ops2 (runOps b L ops1) hg2 (runOps_inv b ops1 L hg1 hL)
  · intro k r1 r2 h1 h2
    obtain ⟨r2', h2', hm⟩ := runOps_conv_mono b ops2 (runOps b L ops1) k r1 hg2 h1
    rw [runOps_append, h2'] at h2
    injection h2 with h2
    rw [← h2]
    exact hm

/-- Witness for C1: a concrete bot, the empty ledger, and a deposit-tracking
operation followed by a conversion operation. -/
theorem converted_amount_invariant_witness :
    LedgerInv (runOps botW [] opsW1) ∧ LedgerInv (runOps botW [] (opsW1 ++ opsW2)) ∧
    ∀ (k : String) (r1 r2 : DepositRecord),
      ledgerFind (runOps botW [] opsW1) k = some r1 →
      ledgerFind (runOps botW [] (opsW1 ++ opsW2)) k = some r2 →
      r1.amounts.converted_amount ≤ r2.amounts.converted_amount :=
  converted_amount_invariant botW [] opsW1 opsW2
    (fun kr hkr => absurd hkr (List.not_mem_nil kr))
    (by
      intro op hop
      simp only [opsW1, opsW2, List.mem_append, List.mem_singleton] at hop
      rcases hop with rfl | rfl
      · simp only [GoodOp]
        intro d hd
        simp only [List.mem_singleton] at hd
        subst hd
        norm_num [depW]
      · simp only [GoodOp, GoodConvEnv]
        intro k rem hrem o ho
        simp [envNoOrder] at ho)

/-- C2: for every record present in the ledger, across any two points of any
sequence of operations of the three components, the pending_withdrawal flag
never transitions from false back to true (each operation in fact preserves
the flag of every existing record), hence it transitions from true to false at
most once. -/
theorem pending_withdrawal_monotone (b : Bot) (L : Ledger) (ops1 ops2 : List Op)
    (k : String) (r0 r1 r2 : DepositRecord)
    (h0 : ledgerFind L k = some r0)
    (h1 : ledgerFind (runOps b L ops1) k = some r1)
    (h2 : ledgerFind (runOps b L (ops1 ++ ops2)) k = some r2) :
    (r1.pending_withdrawal = true → r0.pending_withdrawal = true) ∧
    (r2.pending_withdrawal = true → r1.pending_withdrawal = true) := by
  obtain ⟨r1', h1', hp1⟩ := runOps_pending b ops1 L k r0 h0
  rw [h1'] at h1
  injection h1 with h1
  subst h1
  obtain ⟨r2', h2', hp2⟩ := runOps_pending b ops2 (runOps b L ops1) k r1' h1'
  rw [runOps_append, h2'] at h2
  injection h2 with h2
  subst h2
  exact ⟨fun h => by rw [← hp1]; exact h, fun h => by rw [← hp2]; exact h⟩

/-- Witness for C2: a concrete one-record ledger, one conversion operation and
one withdrawal operation. -/
theorem pending_withdrawal_monotone_witness :
    (recPW.pending_withdrawal = true → recPW.pending_withdrawal = true) ∧
    (recPW.pending_withdrawal = true → recPW.pending_withdrawal = true) := by
  have hsu : ¬ ("unconfirmed" : String) = "confirmed" := by decide
  have hrun1 : runOps botW ledgerW opsW2 = ledgerW := by
    norm_num [opsW2, runOps, runOp, ledgerW, process_conversions, convertRecord, recPW,
      envNoOrder, hsu]
  have hrun2 : runOps botW ledgerW (opsW2 ++ opsW3) = ledgerW := by
    norm_num [opsW2, opsW3, runOps, runOp, ledgerW, process_conversions, convertRecord,
      process_withdrawals, recPW, envNoOrder, wdrEnvW, hsu]
  exact pending_withdrawal_monotone botW ledgerW opsW2 opsW3 "D1" recPW recPW recPW
    rfl (by rw [hrun1]; rfl) (by rw [hrun2]; rfl)

/-- C3: for an eligible record (state confirmed, positive remaining amount)
whose placed market order reaches the traded state: on the buy side
converted_amount grows by the order's total_exchanged and converted_value by
its traded_amount; on the sell side converted_amount grows by traded_amount
and converted_value by total_exchanged; in both cases converted_value is
additionally decreased by paid_fee and the order id is appended to the
record's orders list. -/
theorem conversion_traded_update (b : Bot) (quot : ℚ → ℚ) (place : ℚ → ConvOutcome)
    (r : DepositRecord) (o : MarketOrder)
    (hstate : r.state = "confirmed")
    (hrem : 0 < r.amounts.original_amount - r.amounts.converted_amount)
    (hplace : place (placedAmount b quot
        (r.amounts.original_amount - r.amounts.converted_amount)) = ConvOutcome.traded o)
    (htraded : o.state = "traded") :
    (convertRecord b quot place r).1.amounts.converted_amount =
      r.amounts.converted_amount +
        (if b.side = Side.buy then o.total_exchanged else o.traded_amount) ∧
    (convertRecord b quot place r).1.amounts.converted_value =
      r.amounts.converted_value +
        (if b.side = Side.buy then o.traded_amount else o.total_exchanged) - o.paid_fee ∧
    (convertRecord b quot place r).1.orders = r.orders ++ [o.id] := by
  rw [convertRecord, if_pos ⟨hstate, hrem⟩]
  simp only [hplace, htraded, eq_self_iff_true, and_true]

/-- Witness for C3: spec scenario C on the sell side — an order trading 1/2
base for 2000 quote with fee 2. -/
theorem conversion_traded_update_witness :
    (convertRecord botW (fun q => q) (fun _ => ConvOutcome.traded ordCW)
        recCW).1.amounts.converted_amount =
      recCW.amounts.converted_amount +
        (if botW.side = Side.buy then ordCW.total_exchanged else ordCW.traded_amount) ∧
    (convertRecord botW (fun q => q) (fun _ => ConvOutcome.traded ordCW)
        recCW).1.amounts.converted_value =
      recCW.amounts.converted_value +
        (if botW.side = Side.buy then ordCW.traded_amount else ordCW.total_exchanged) -
          ordCW.paid_fee ∧
    (convertRecord botW (fun q => q) (fun _ => ConvOutcome.traded ordCW)
        recCW).1.orders = recCW.orders ++ [ordCW.id] :=
  conversion_traded_update botW (fun q => q) (fun _ => ConvOutcome.traded ordCW)
    recCW ordCW rfl (by norm_num [recCW]) rfl rfl

/-- C10: for an eligible record when order placement returns no order, the
record is left entirely unchanged (amounts and orders list) and the only
notification emitted for the record is the announcement preceding placement. -/
theorem conversion_no_order_skips (b : Bot) (quot : ℚ → ℚ) (place : ℚ → ConvOutcome)
    (r : DepositRecord)
    (hstate : r.state = "confirmed")
    (hrem : 0 < r.amounts.original_amount - r.amounts.converted_amount)
    (hplace : place (placedAmount b quot
        (r.amounts.original_amount - r.amounts.converted_amount)) = ConvOutcome.noOrder) :
    (convertRecord b quot place r).1 = r ∧
    (convertRecord b quot place r).2 =
      [Msg.announceOrder b.side (placedAmount b quot
        (r.amounts.original_amount - r.amounts.converted_amount)) b.base] := by
  rw [convertRecord, if_pos ⟨hstate, hrem⟩]
  simp only [hplace]
  exact ⟨by trivial, by trivial⟩

/-- Witness for C10: a confirmed half-converted record whose placement returns
no order. -/
theorem conversion_no_order_skips_witness :
    (convertRecord botW (fun q => q) (fun _ => ConvOutcome.noOrder) recCW).1 = recCW ∧
    (convertRecord botW (fun q => q) (fun _ => ConvOutcome.noOrder) recCW).2 =
      [Msg.announceOrder botW.side (placedAmount botW (fun q => q)
        (recCW.amounts.original_amount - recCW.amounts.converted_amount)) botW.base] :=
  conversion_no_order_skips botW (fun q => q) (fun _ => ConvOutcome.noOrder) recCW
    rfl (by norm_num [recCW]) rfl

/-- C4 (evaluation of the code at the failing input): on a
withdrawal-eligible record whose truncated withdrawal amount 1998 exceeds the
available balance 1997 (spec scenario E), process_withdrawals does not emit a
warning and leave the record for retry as the claim states: it raises
NameError, because the insufficient-balance log and notify f-strings of
bot.py lines 169-170 reference the undefined name amount. -/
theorem withdrawal_insufficient_balance_raises :
    process_withdrawals botW wdrEnvLow ledgerE =
      Except.error "NameError: amount is not defined" := by
  norm_num [process_withdrawals, ledgerE, recE, botW, wdrEnvLow, truncate_to]

/-- C5 (evaluation of the code at the failing input): on a
withdrawal-eligible record whose truncated withdrawal amount 1998 does not
exceed the available balance 3000 (spec scenario F), process_withdrawals does
not request the withdrawal and clear pending_withdrawal as the claim states:
it raises NameError first, because the announcement f-string of bot.py line
157 references converted_value, a name local to process_conversions and
undefined in process_withdrawals. -/
theorem withdrawal_success_path_raises :
    process_withdrawals botW wdrEnvHigh ledgerE =
      Except.error "NameError: converted_value is not defined" := by
  norm_num [process_withdrawals, ledgerE, recE, botW, wdrEnvHigh, truncate_to]

/-- C6 counterexample: setup persists nothing to the store (an execution at
time 5 performs no store write), and a later execution whose setup runs at
time 9 uses 9 — not the earlier execution's 5 — as the lower bound for
deposit discovery, so the deposit depEarly created at time 6, at or after the
first activation, is dropped from the later execution's filtered feed. -/
theorem start_marker_counterexample :
    (setup "BTC" [] 5).1.start_date = 5 ∧ (setup "BTC" [] 5).2 = [] ∧
    (setup "BTC" [] 9).1.start_date = 9 ∧ (5 : Nat) ≤ depEarly.created_at ∧
    filterDeposits botW 9 [depEarly] = [] := by
  refine ⟨rfl, rfl, rfl, by norm_num [depEarly], ?_⟩
  simp [filterDeposits, botW, depEarly]

/-- C6 amended: the start marker is not persisted; each execution sets it to
the UTC time observed at its own setup, setup performs no store write, and
that per-execution timestamp is the lower bound for deposit discovery: every
deposit surviving the filter was created at or after it, so deposits
predating bot activation are never processed. -/
theorem start_marker_per_execution (c : String) (store : List (String × Ledger))
    (now : Nat) (b : Bot) (feed : List Deposit) (d : Deposit)
    (hd : d ∈ filterDeposits b now feed) :
    (setup c store now).1.start_date = now ∧ (setup c store now).2 = store ∧
    now ≤ d.created_at :=
  ⟨rfl, rfl, (mem_filterDeposits b now feed d hd).2⟩

/-- Witness for C6 amended: a concrete execution at time 10 with a deposit
created at time 10 surviving the filter. -/
theorem start_marker_per_execution_witness :
    (setup "BTC" [] 10).1.start_date = 10 ∧ (setup "BTC" [] 10).2 = [] ∧
    10 ≤ depW.created_at :=
  start_marker_per_execution "BTC" [] 10 botW [depW] depW
    (by simp [filterDeposits, botW, depW])

/-- C7: a filtered deposit (one passing the address and start-date filters)
whose identifier is absent from the ledger creates a record carrying the
deposit's reported state, original_amount equal to the deposited amount, zero
converted_amount and converted_value, an empty orders list and the configured
withdrawal flag, and emits the new-deposit notification carrying id,
currency, amount and state. -/
theorem new_deposit_record_creation (b : Bot) (sd : Nat) (L : Ledger) (d : Deposit)
    (haddr : b.from_address = "Any" ∨ d.address = b.from_address)
    (hdate : sd ≤ d.created_at)
    (habsent : ledgerFind L d.id = none) :
    update_deposits b sd L [d] =
      (ledgerSet L d.id
        { state := d.state
          amounts := { original_amount := d.amount, converted_amount := 0,
                       converted_value := 0 }
          orders := []
          pending_withdrawal := b.to_withdraw },
       [Msg.newDeposit d.id d.currency d.amount d.state]) := by
  have hfilter : filterDeposits b sd [d] = [d] := by
    simp only [filterDeposits]
    rcases haddr with ha | ha
    · rw [if_neg (by simp [ha])]
      simp [hdate]
    · by_cases hany : b.from_address ≠ "Any"
      · rw [if_pos hany]
        simp [ha, hdate]
      · rw [if_neg hany]
        simp [hdate]
  rw [update_deposits, hfilter]
  simp [updFold, updateDepositsStep, habsent, newRecord]

/-- Witness for C7: the deposit depW first observed on an empty ledger. -/
theorem new_deposit_record_creation_witness :
    update_deposits botW 0 [] [depW] =
      (ledgerSet [] depW.id
        { state := depW.state
          amounts := { original_amount := depW.amount, converted_amount := 0,
                       converted_value := 0 }
          orders := []
          pending_withdrawal := botW.to_withdraw },
       [Msg.newDeposit depW.id depW.currency depW.amount depW.state]) :=
  new_deposit_record_creation botW 0 [] depW (Or.inl rfl) (Nat.zero_le _) rfl

/-- C8: DepositTracker is idempotent on an unchanged feed (whose filtered
deposits carry pairwise distinct identifiers): a second run of
update_deposits returns the ledger of the first run unchanged and emits no
notification. -/
theorem update_deposits_idempotent (b : Bot) (sd : Nat) (L : Ledger)
    (feed : List Deposit)
    (hnodup : ((filterDeposits b sd feed).map Deposit.id).Nodup) :
    update_deposits b sd (update_deposits b sd L feed).1 feed =
      ((update_deposits b sd L feed).1, []) :=
  updFold_noop b.to_withdraw (filterDeposits b sd feed)
    (update_deposits b sd L feed).1
    (fun d hd => updFold_post b.to_withdraw (filterDeposits b sd feed) L hnodup d hd)

/-- Witness for C8: tracking the one-deposit feed [depW] twice from the empty
ledger. -/
theorem update_deposits_idempotent_witness :
    update_deposits botW 0 (update_deposits botW 0 [] [depW]).1 [depW] =
      ((update_deposits botW 0 [] [depW]).1, []) :=
  update_deposits_idempotent botW 0 [] [depW]
    (by simp [filterDeposits, botW, depW])

/-- C9 counterexample: with markets BTC-CLP and ETH-USD, no single market
pairs BTC with USD, yet market resolution raises no error: it returns the
nonexistent market BTC-USD, because membership is checked against the bases
and quotes collected across all markets separately. -/
theorem market_resolution_counterexample :
    (∀ m ∈ mktsCE, ¬ ((m.base_currency = "BTC" ∧ m.quote_currency = "USD") ∨
        (m.base_currency = "USD" ∧ m.quote_currency = "BTC"))) ∧
    get_market mktsCE "BTC" "USD" = Except.ok { base := "BTC", quote := "USD" } := by
  constructor
  · decide
  · rfl

/-- C9 amended: market resolution raises the fatal setup error iff the source
currency is missing from the bases or the destination from the quotes
collected across all markets, and also the source is missing from the quotes
or the destination from the bases.  Hence whenever some single market
directly pairs the two currencies no error is raised, but the converse fails.
When no error is raised the returned market is exactly Market(from, to) if
from is among the bases and to among the quotes, and exactly Market(to, from)
otherwise — it need not correspond to any listed market — and the side
derived from the returned market is sell precisely when its base equals the
source currency, buy otherwise. -/
theorem market_resolution_behavior (markets : List MarketInfo) (fc tc : String) :
    (get_market markets fc tc = Except.error "No compatible market found!" ↔
      ¬ ((fc ∈ markets.map MarketInfo.base_currency ∧
          tc ∈ markets.map MarketInfo.quote_currency) ∨
         (fc ∈ markets.map MarketInfo.quote_currency ∧
          tc ∈ markets.map MarketInfo.base_currency))) ∧
    ((∃ m ∈ markets, (m.base_currency = fc ∧ m.quote_currency = tc) ∨
        (m.base_currency = tc ∧ m.quote_currency = fc)) →
      ∃ mk, get_market markets fc tc = Except.ok mk) ∧
    ((fc ∈ markets.map MarketInfo.base_currency ∧
        tc ∈ markets.map MarketInfo.quote_currency) →
      get_market markets fc tc = Except.ok { base := fc, quote := tc }) ∧
    (¬ (fc ∈ markets.map MarketInfo.base_currency ∧
        tc ∈ markets.map MarketInfo.quote_currency) →
      (fc ∈ markets.map MarketInfo.quote_currency ∧
        tc ∈ markets.map MarketInfo.base_currency) →
      get_market markets fc tc = Except.ok { base := tc, quote := fc }) ∧
    (∀ mk, get_market markets fc tc = Except.ok mk →
      (sideFor mk fc = Side.sell ↔ mk.base = fc)) := by
  have hbr1 : (fc ∈ markets.map MarketInfo.base_currency ∧
      tc ∈ markets.map MarketInfo.quote_currency) →
      get_market markets fc tc = Except.ok { base := fc, quote := tc } := by
    intro h1
    simp only [get_market]
    rw [if_pos h1]
  have hbr2 : ¬ (fc ∈ markets.map MarketInfo.base_currency ∧
      tc ∈ markets.map MarketInfo.quote_currency) →
      (fc ∈ markets.map MarketInfo.quote_currency ∧
        tc ∈ markets.map MarketInfo.base_currency) →
      get_market markets fc tc = Except.ok { base := tc, quote := fc } := by
    intro h1 h2
    simp only [get_market]
    rw [if_neg h1, if_pos h2]
  refine ⟨?_, ?_, hbr1, hbr2, ?_⟩
  · simp only [get_market]
    by_cases h1 : fc ∈ markets.map MarketInfo.base_currency ∧
        tc ∈ markets.map MarketInfo.quote_currency
    · rw [if_pos h1]
      exact iff_of_false (by simp) (fun hn => hn (Or.inl h1))
    · rw [if_neg h1]
      by_cases h2 : fc ∈ markets.map MarketInfo.quote_currency ∧
          tc ∈ markets.map MarketInfo.base_currency
      · rw [if_pos h2]
        exact iff_of_false (by simp) (fun hn => hn (Or.inr h2))
      · rw [if_neg h2]
        exact iff_of_true rfl (not_or.mpr ⟨h1, h2⟩)
  · rintro ⟨m, hm, ⟨hb, hq⟩ | ⟨hb, hq⟩⟩
    · exact ⟨_, hbr1 ⟨List.mem_map.mpr ⟨m, hm, hb⟩, List.mem_map.mpr ⟨m, hm, hq⟩⟩⟩
    · by_cases h1 : fc ∈ markets.map MarketInfo.base_currency ∧
          tc ∈ markets.map MarketInfo.quote_currency
      · exact ⟨_, hbr1 h1⟩
      · exact ⟨_, hbr2 h1 ⟨List.mem_map.mpr ⟨m, hm, hq⟩, List.mem_map.mpr ⟨m, hm, hb⟩⟩⟩
  · intro mk _
    rw [sideFor]
    by_cases hb : mk.base = fc
    · rw [if_pos hb]
      exact iff_of_true rfl hb
    · rw [if_neg hb]
      exact iff_of_false (by decide) hb

/-- Witness for C9 amended: on the concrete markets list all behaviors are
realized — resolving BTC to CLP hits the first branch and returns
Market(BTC, CLP); resolving CLP to BTC hits the second branch and returns the
same market value, whose side for source CLP is not sell; resolving XRP to
JPY raises the error. -/
theorem market_resolution_behavior_witness :
    get_market mktsCE "BTC" "CLP" = Except.ok { base := "BTC", quote := "CLP" } ∧
    get_market mktsCE "CLP" "BTC" = Except.ok { base := "BTC", quote := "CLP" } ∧
    ¬ sideFor { base := "BTC", quote := "CLP" } "CLP" = Side.sell ∧
    get_market mktsCE "XRP" "JPY" = Except.error "No compatible market found!" := by
  have h1 := market_resolution_behavior mktsCE "BTC" "CLP"
  have h2 := market_resolution_behavior mktsCE "CLP" "BTC"
  have h3 := market_resolution_behavior mktsCE "XRP" "JPY"
  have e1 := h1.2.2.1 (by decide)
  have e2 := h2.2.2.2.1 (by decide) (by decide)
  refine ⟨e1, e2, ?_, h3.1.mpr (by decide)⟩
  intro hs
  exact absurd ((h2.2.2.2.2 { base := "BTC", quote := "CLP" } e2).mp hs) (by decide)

end AnyToAny
